import Mathlib

/-!
Verification of `get_raw_github_link.py` (tv_logos repository).

Strings are embedded as `List Char`. Python's `str.strip()` is `sanitize_url`
(the source's sanitizing function), Python's regular-expression match of
`GITHUB_URL_PATTERN` is `githubUrlMatch`, and the interactive loop of `main`
is embedded as a step function on input events.

The regular expression
`https?://github\.com/(?P<owner>[^/]+)/(?P<repo>[^/]+)/(blob|raw)/(?P<branch>[^/]+)/(?P<path>.+)$`
used through `re.match` is deterministic: every `[^/]+` group followed by a
literal `/` admits only the maximal-run parse (a shorter run leaves a
non-slash character where the literal `/` is required), the scheme and
`(blob|raw)` alternatives are mutually exclusive at their positions, and the
final `(.+)$` (where `.` excludes newline and `$` matches at the end of the
string or just before a terminal newline) matches the whole remainder, or the
remainder minus a terminal newline.  `githubUrlMatch` below implements exactly
that parse.
-/

namespace TvLogos

/-- Characters stripped by Python's `str.strip()` (the `str.isspace` set):
ASCII whitespace `\t \n \v \f \r` and space, the control characters
`\x1c`-`\x1f`, `\x85`, and the Unicode space separators. -/
def isPySpace (c : Char) : Bool :=
  let n := c.toNat
  n = 0x20 || (0x9 ≤ n && n ≤ 0xd) || (0x1c ≤ n && n ≤ 0x1f) ||
  n = 0x85 || n = 0xa0 || n = 0x1680 ||
  (0x2000 ≤ n && n ≤ 0x200a) || n = 0x2028 || n = 0x2029 ||
  n = 0x202f || n = 0x205f || n = 0x3000

/-- `GitHubLinkConverter.sanitize_url`: `url.strip()` — remove leading and
trailing whitespace. -/
def sanitize_url (s : List Char) : List Char :=
  ((s.dropWhile isPySpace).reverse.dropWhile isPySpace).reverse

/-- Drop a literal from the front of the input: `some` of the remainder when
the input starts with the literal, `none` otherwise. -/
def dropLit : List Char → List Char → Option (List Char)
  | [], s => some s
  | _ :: _, [] => none
  | a :: pre, b :: s => if a = b then dropLit pre s else none

/-- The run of non-slash characters up to the first `/`, and the remainder
after that `/`; `none` when the input holds no `/` at all. -/
def chompSeg : List Char → Option (List Char × List Char)
  | [] => none
  | c :: s =>
    if c = '/' then some ([], s)
    else (chompSeg s).map (fun pr => (c :: pr.1, pr.2))

/-- One `[^/]+` group followed by a literal `/`: the (non-empty) run of
non-slash characters up to the first `/`, and the remainder after that `/`. -/
def splitSeg (s : List Char) : Option (List Char × List Char) :=
  match chompSeg s with
  | none => none
  | some (a, r) => if a = [] then none else some (a, r)

/-- The run of non-newline characters up to the first `\n` (the whole input
when it has no newline), and the remainder from that `\n` on. -/
def chompLine : List Char → List Char × List Char
  | [] => ([], [])
  | c :: s =>
    if c = '\n' then ([], c :: s)
    else
      let pr := chompLine s
      (c :: pr.1, pr.2)

/-- The final `(?P<path>.+)$` group: `.` matches anything but a newline, so
the group captures the maximal newline-free run, and `$` then matches only at
the end of the string or just before a terminal newline. -/
def matchPath (s : List Char) : Option (List Char) :=
  if (chompLine s).1 = [] then none
  else if (chompLine s).2 = [] ∨ (chompLine s).2 = ['\n'] then some (chompLine s).1
  else none

/-- `https?://github\.com/`: the two scheme alternatives are mutually
exclusive (`s` versus `:` at the fourth position). -/
def schemeHost (s : List Char) : Option (List Char) :=
  match dropLit ("https://github.com/".toList) s with
  | some r => some r
  | none => dropLit ("http://github.com/".toList) s

/-- `(blob|raw)/`: the two alternatives are mutually exclusive (`b` versus
`r` at the first position). -/
def blobRaw (s : List Char) : Option (List Char) :=
  match dropLit ("blob/".toList) s with
  | some r => some r
  | none => dropLit ("raw/".toList) s

/-- The transient reference tuple captured by the named groups. -/
structure ParsedReference where
  owner : List Char
  repo : List Char
  branch : List Char
  path : List Char
deriving DecidableEq, Repr

/-- `GITHUB_URL_PATTERN.match`: anchored at the start of the string, the five
segments in order, capturing the four named groups. -/
def githubUrlMatch (s : List Char) : Option ParsedReference :=
  (schemeHost s).bind fun r0 =>
  (splitSeg r0).bind fun o1 =>
  (splitSeg o1.2).bind fun p2 =>
  (blobRaw p2.2).bind fun r3 =>
  (splitSeg r3).bind fun b4 =>
  (matchPath b4.2).map fun path => ⟨o1.1, p2.1, b4.1, path⟩

/-- `GitHubLinkConverter.is_valid_github_url`:
`bool(GITHUB_URL_PATTERN.match(url))` — no stripping. -/
def is_valid_github_url (url : List Char) : Bool :=
  (githubUrlMatch url).isSome

/-- `RAW_GITHUB_URL_TEMPLATE.format(**groups)`: the template
`https://raw.githubusercontent.com/` followed by owner, repo, branch, path
separated by `/`, with the captured values inserted verbatim. -/
def RAW_GITHUB_URL_TEMPLATE (owner repo branch path : List Char) : List Char :=
  "https://raw.githubusercontent.com/".toList ++
    owner ++ '/' :: repo ++ '/' :: branch ++ '/' :: path

/-- `GitHubLinkConverter.convert_to_raw`: strip, match, template. -/
def convert_to_raw (url : List Char) : Option (List Char) :=
  match githubUrlMatch (sanitize_url url) with
  | none => none
  | some m => some (RAW_GITHUB_URL_TEMPLATE m.owner m.repo m.branch m.path)

section Shell

/-- The exit keywords checked by `main`: `('quit', 'exit', 'q')`. -/
def EXIT_KEYWORDS : List (List Char) :=
  ["quit".toList, "exit".toList, "q".toList]

/-- `str.lower()` restricted to the ASCII letters, the only characters the
exit keywords involve. -/
def pyLower (s : List Char) : List Char :=
  s.map Char.toLower

/-- One event seen by an iteration of the `while True` loop of `main`: a line
returned by `input()`, a `KeyboardInterrupt`, or any other exception raised
during the iteration's work (caught by the final `except Exception`). -/
inductive Event where
  | line (s : List Char)
  | interrupt
  | exn (msg : List Char)
deriving DecidableEq, Repr

/-- Outcome of one loop iteration: the strings printed, whether the loop
terminated, the process exit status when it did (the source exits only via
`break` and `sys.exit(0)`, both status 0), and whether `convert_to_raw` was
called. -/
structure IterResult where
  output : List (List Char)
  exits : Bool
  exitCode : Nat
  converterCalled : Bool
deriving DecidableEq, Repr

/-- One iteration of the loop body of `main`, including its two `except`
clauses. -/
def mainIter : Event → IterResult
  | .line s =>
    let t := sanitize_url s
    if pyLower t ∈ EXIT_KEYWORDS then
      ⟨["Goodbye!".toList], true, 0, false⟩
    else if t = [] then
      ⟨["Please enter a valid URL.\n".toList], false, 0, false⟩
    else
      match convert_to_raw t with
      | some raw =>
        ⟨["\nRaw GitHub Link:\n".toList ++ raw ++ "\n".toList], false, 0, true⟩
      | none =>
        ⟨["Error: Invalid GitHub URL format. Please use a GitHub browser link.\n".toList],
          false, 0, true⟩
  | .interrupt => ⟨["\n\nGoodbye!".toList], true, 0, false⟩
  | .exn m => ⟨["An error occurred: ".toList ++ m ++ "\n".toList], false, 0, false⟩

/-- Result of running the loop over a finite trace of events: terminated with
the accumulated output and an exit status, or still looping having consumed
the whole trace. -/
inductive LoopResult where
  | exited (out : List (List Char)) (code : Nat)
  | pending (out : List (List Char))
deriving DecidableEq, Repr

/-- The `while True` loop of `main` over a trace of events. -/
def mainLoop : List Event → LoopResult
  | [] => .pending []
  | e :: es =>
    let r := mainIter e
    if r.exits then .exited r.output r.exitCode
    else
      match mainLoop es with
      | .exited out c => .exited (r.output ++ out) c
      | .pending out => .pending (r.output ++ out)

/-- The events at which the loop body terminates the loop: an exit keyword
line or a `KeyboardInterrupt`. -/
def isTerminatingEvent : Event → Bool
  | .line s => pyLower (sanitize_url s) ∈ EXIT_KEYWORDS
  | .interrupt => true
  | .exn _ => false

end Shell

/-- `convert_to_raw` run against an explicit program state (the static method
reads no global and performs no I/O, so the state passes through). -/
def convertRun (w : List (List Char)) (url : List Char) :
    List (List Char) × Option (List Char) :=
  (w, convert_to_raw url)

/-! ### Inversion and construction lemmas for the parse chain -/

theorem dropLit_self (pre r : List Char) : dropLit pre (pre ++ r) = some r := by
  induction pre with
  | nil => rfl
  | cons a pre ih => simp [dropLit, ih]

theorem dropLit_eq_some {pre s r : List Char} (h : dropLit pre s = some r) :
    s = pre ++ r := by
  induction pre generalizing s with
  | nil => simpa [dropLit] using h
  | cons a pre ih =>
    cases s with
    | nil => simp [dropLit] at h
    | cons b s =>
      by_cases hab : a = b
      · subst hab
        simp only [dropLit, if_pos rfl] at h
        simpa using ih h
      · simp [dropLit, hab] at h

theorem chompSeg_eq_some {s a r : List Char} (h : chompSeg s = some (a, r)) :
    '/' ∉ a ∧ s = a ++ '/' :: r := by
  induction s generalizing a r with
  | nil => simp [chompSeg] at h
  | cons c s ih =>
    by_cases hc : c = '/'
    · subst hc
      simp [chompSeg] at h
      obtain ⟨rfl, rfl⟩ := h
      simp
    · simp only [chompSeg, if_neg hc, Option.map_eq_some'] at h
      obtain ⟨⟨a', r'⟩, hcs, heq⟩ := h
      cases heq
      obtain ⟨h1, h2⟩ := ih hcs
      refine ⟨?_, by simp [h2]⟩
      intro hmem
      rcases List.mem_cons.mp hmem with h | h
      · exact hc h.symm
      · exact h1 h

theorem chompSeg_append {a : List Char} (r : List Char) (h : '/' ∉ a) :
    chompSeg (a ++ '/' :: r) = some (a, r) := by
  induction a with
  | nil => simp [chompSeg]
  | cons c a ih =>
    have hc : c ≠ '/' := fun hcq => h (hcq ▸ List.mem_cons_self c a)
    have ha : '/' ∉ a := fun hm => h (List.mem_cons_of_mem c hm)
    simp [chompSeg, hc, ih ha]

theorem splitSeg_eq_some {s a r : List Char} (h : splitSeg s = some (a, r)) :
    a ≠ [] ∧ '/' ∉ a ∧ s = a ++ '/' :: r := by
  unfold splitSeg at h
  rcases hcs : chompSeg s with _ | ⟨a', r'⟩ <;> rw [hcs] at h
  · simp at h
  · by_cases ha : a' = []
    · simp [ha] at h
    · simp [ha] at h
      obtain ⟨rfl, rfl⟩ := h
      obtain ⟨h1, h2⟩ := chompSeg_eq_some hcs
      exact ⟨ha, h1, h2⟩

theorem splitSeg_self {a : List Char} (r : List Char) (h1 : a ≠ [])
    (h2 : '/' ∉ a) : splitSeg (a ++ '/' :: r) = some (a, r) := by
  unfold splitSeg
  rw [chompSeg_append r h2]
  simp [h1]

theorem chompLine_spec (s : List Char) :
    '\n' ∉ (chompLine s).1 ∧ s = (chompLine s).1 ++ (chompLine s).2 ∧
      ((chompLine s).2 = [] ∨ ∃ t, (chompLine s).2 = '\n' :: t) := by
  induction s with
  | nil => simp [chompLine]
  | cons c s ih =>
    by_cases hc : c = '\n'
    · subst hc
      refine ⟨by simp [chompLine], by simp [chompLine], Or.inr ⟨s, by simp [chompLine]⟩⟩
    · obtain ⟨h1, h2, h3⟩ := ih
      refine ⟨?_, ?_, ?_⟩
      · simp only [chompLine, if_neg hc]
        intro hmem
        rcases List.mem_cons.mp hmem with h | h
        · exact hc h.symm
        · exact h1 h
      · simp only [chompLine, if_neg hc]
        simpa using h2
      · simpa only [chompLine, if_neg hc] using h3

theorem chompLine_of_no_newline {p : List Char} (h : '\n' ∉ p) :
    chompLine p = (p, []) := by
  induction p with
  | nil => rfl
  | cons c p ih =>
    have hc : c ≠ '\n' := fun hcq => h (hcq ▸ List.mem_cons_self c p)
    have hp : '\n' ∉ p := fun hm => h (List.mem_cons_of_mem c hm)
    simp [chompLine, hc, ih hp]

theorem matchPath_eq_some {s p : List Char} (h : matchPath s = some p) :
    p ≠ [] ∧ '\n' ∉ p ∧ (s = p ∨ s = p ++ ['\n']) := by
  obtain ⟨h1, h2, _⟩ := chompLine_spec s
  unfold matchPath at h
  by_cases hq : (chompLine s).1 = []
  · simp [hq] at h
  · by_cases hr : (chompLine s).2 = [] ∨ (chompLine s).2 = ['\n']
    · have hqp : (chompLine s).1 = p := by simpa [hq, hr] using h
      rw [hqp] at h1 h2 hq
      rcases hr with hr | hr
      · rw [hr] at h2
        exact ⟨hq, h1, Or.inl (by simpa using h2)⟩
      · rw [hr] at h2
        exact ⟨hq, h1, Or.inr h2⟩
    · simp [hq, hr] at h

theorem matchPath_self {p : List Char} (h1 : p ≠ []) (h2 : '\n' ∉ p) :
    matchPath p = some p := by
  unfold matchPath
  rw [chompLine_of_no_newline h2]
  simp [h1]

theorem schemeHost_eq_some {s r : List Char} (h : schemeHost s = some r) :
    s = "https://github.com/".toList ++ r ∨ s = "http://github.com/".toList ++ r := by
  unfold schemeHost at h
  rcases hd : dropLit ("https://github.com/".toList) s with _ | r' <;> rw [hd] at h
  · exact Or.inr (dropLit_eq_some h)
  · obtain rfl := Option.some.inj h
    exact Or.inl (dropLit_eq_some hd)

theorem schemeHost_https (r : List Char) :
    schemeHost ("https://github.com/".toList ++ r) = some r := by
  unfold schemeHost
  rw [dropLit_self]

theorem blobRaw_eq_some {s r : List Char} (h : blobRaw s = some r) :
    s = "blob/".toList ++ r ∨ s = "raw/".toList ++ r := by
  unfold blobRaw at h
  rcases hd : dropLit ("blob/".toList) s with _ | r' <;> rw [hd] at h
  · exact Or.inr (dropLit_eq_some h)
  · obtain rfl := Option.some.inj h
    exact Or.inl (dropLit_eq_some hd)

theorem blobRaw_blob (r : List Char) :
    blobRaw ("blob/".toList ++ r) = some r := by
  unfold blobRaw
  rw [dropLit_self]

theorem blobRaw_raw (r : List Char) :
    blobRaw ("raw/".toList ++ r) = some r := by
  unfold blobRaw
  have hb : dropLit ("blob/".toList) ("raw/".toList ++ r) = none := rfl
  rw [hb, dropLit_self]

/-! ### Stripping lemmas -/

theorem head?_dropWhile_isPySpace {l : List Char} {c : Char}
    (h : (l.dropWhile isPySpace).head? = some c) : isPySpace c = false := by
  have hw := List.head?_dropWhile_not isPySpace l
  rw [h] at hw
  exact hw

theorem sanitize_getLast?_not_space {s : List Char} {c : Char}
    (h : (sanitize_url s).getLast? = some c) : isPySpace c = false := by
  unfold sanitize_url at h
  rw [List.getLast?_reverse] at h
  exact head?_dropWhile_isPySpace h

theorem dropWhile_eq_self_of_head {l : List Char}
    (h : ∀ c, l.head? = some c → isPySpace c = false) :
    l.dropWhile isPySpace = l := by
  cases l with
  | nil => rfl
  | cons a t =>
    have ha := h a rfl
    simp [List.dropWhile_cons, ha]

theorem sanitize_eq_self {s : List Char}
    (h1 : ∀ c, s.head? = some c → isPySpace c = false)
    (h2 : ∀ c, s.getLast? = some c → isPySpace c = false) :
    sanitize_url s = s := by
  unfold sanitize_url
  rw [dropWhile_eq_self_of_head h1,
    dropWhile_eq_self_of_head (fun c hc => h2 c (by rwa [List.head?_reverse] at hc)),
    List.reverse_reverse]

theorem dropWhile_ws_append {sp : List Char} (l : List Char)
    (h : ∀ c ∈ sp, isPySpace c = true) :
    (sp ++ l).dropWhile isPySpace = l.dropWhile isPySpace := by
  induction sp with
  | nil => rfl
  | cons a t ih =>
    have ha := h a (List.mem_cons_self a t)
    simp [List.dropWhile_cons, ha, ih (fun c hc => h c (List.mem_cons_of_mem a hc))]

theorem dropWhile_ws_append_of_ne_nil {l : List Char} (l' : List Char)
    (h : l.dropWhile isPySpace ≠ []) :
    (l ++ l').dropWhile isPySpace = l.dropWhile isPySpace ++ l' := by
  induction l with
  | nil => exact absurd rfl h
  | cons a t ih =>
    by_cases ha : isPySpace a = true
    · have h' : t.dropWhile isPySpace ≠ [] := by
        rwa [List.dropWhile_cons_of_pos ha] at h
      rw [List.cons_append, List.dropWhile_cons_of_pos ha,
        List.dropWhile_cons_of_pos ha, ih h']
    · have ha' : ¬ isPySpace a = true := ha
      rw [List.cons_append, List.dropWhile_cons_of_neg ha',
        List.dropWhile_cons_of_neg ha', List.cons_append]

theorem sanitize_ws_left {sp : List Char} (s : List Char)
    (h : ∀ c ∈ sp, isPySpace c = true) :
    sanitize_url (sp ++ s) = sanitize_url s := by
  unfold sanitize_url
  rw [dropWhile_ws_append s h]

theorem sanitize_ws_right {sp : List Char} (s : List Char)
    (h : ∀ c ∈ sp, isPySpace c = true) :
    sanitize_url (s ++ sp) = sanitize_url s := by
  unfold sanitize_url
  by_cases hd : s.dropWhile isPySpace = []
  · have hsall : ∀ c ∈ s, isPySpace c = true := by
      intro c hc
      by_contra hcp
      have := List.dropWhile_eq_nil_iff.mp hd c hc
      exact hcp this
    have hall : ∀ c ∈ s ++ sp, isPySpace c = true := by
      intro c hc
      rcases List.mem_append.mp hc with hc | hc
      · exact hsall c hc
      · exact h c hc
    rw [List.dropWhile_eq_nil_iff.mpr hall, hd]
  · rw [dropWhile_ws_append_of_ne_nil sp hd, List.reverse_append,
      dropWhile_ws_append _ (fun c hc => h c (List.mem_reverse.mp hc))]

/-! ### Reconstruction of a successful match -/

theorem githubUrlMatch_shape {s : List Char} {ref : ParsedReference}
    (h : githubUrlMatch s = some ref) :
    ∃ pre mid tail,
      (pre = "https://github.com/".toList ∨ pre = "http://github.com/".toList) ∧
      (mid = "blob".toList ∨ mid = "raw".toList) ∧
      (tail = [] ∨ tail = ['\n']) ∧
      ref.owner ≠ [] ∧ '/' ∉ ref.owner ∧
      ref.repo ≠ [] ∧ '/' ∉ ref.repo ∧
      ref.branch ≠ [] ∧ '/' ∉ ref.branch ∧
      ref.path ≠ [] ∧ '\n' ∉ ref.path ∧
      s = pre ++ (ref.owner ++ '/' :: (ref.repo ++ '/' ::
        (mid ++ '/' :: (ref.branch ++ '/' :: (ref.path ++ tail))))) := by
  unfold githubUrlMatch at h
  rcases h0 : schemeHost s with _ | r0 <;> rw [h0] at h
  · simp at h
  simp only [Option.some_bind] at h
  rcases h1 : splitSeg r0 with _ | ⟨owner, r1⟩ <;> rw [h1] at h
  · simp at h
  simp only [Option.some_bind] at h
  rcases h2 : splitSeg r1 with _ | ⟨repo, r2⟩ <;> rw [h2] at h
  · simp at h
  simp only [Option.some_bind] at h
  rcases h3 : blobRaw r2 with _ | r3 <;> rw [h3] at h
  · simp at h
  simp only [Option.some_bind] at h
  rcases h4 : splitSeg r3 with _ | ⟨branch, r4⟩ <;> rw [h4] at h
  · simp at h
  simp only [Option.some_bind] at h
  rcases h5 : matchPath r4 with _ | path <;> rw [h5] at h
  · simp at h
  simp only [Option.map_some'] at h
  obtain rfl := Option.some.inj h
  obtain ⟨ho1, ho2, hr0⟩ := splitSeg_eq_some h1
  obtain ⟨hp1, hp2, hr1⟩ := splitSeg_eq_some h2
  obtain ⟨hb1, hb2, hr3⟩ := splitSeg_eq_some h4
  obtain ⟨hq1, hq2, hr4⟩ := matchPath_eq_some h5
  have hscheme := schemeHost_eq_some h0
  have hbr := blobRaw_eq_some h3
  obtain ⟨pre, hpre, hs⟩ : ∃ pre,
      (pre = "https://github.com/".toList ∨ pre = "http://github.com/".toList) ∧
        s = pre ++ r0 := by
    rcases hscheme with hsch | hsch
    · exact ⟨_, Or.inl rfl, hsch⟩
    · exact ⟨_, Or.inr rfl, hsch⟩
  obtain ⟨mid, hmid, hr2⟩ : ∃ mid,
      (mid = "blob".toList ∨ mid = "raw".toList) ∧ r2 = mid ++ '/' :: r3 := by
    rcases hbr with hb | hb
    · exact ⟨"blob".toList, Or.inl rfl, hb⟩
    · exact ⟨"raw".toList, Or.inr rfl, hb⟩
  obtain ⟨tail, htail, hr4'⟩ : ∃ tail,
      (tail = [] ∨ tail = ['\n']) ∧ r4 = path ++ tail := by
    rcases hr4 with hr | hr
    · exact ⟨[], Or.inl rfl, by rw [hr, List.append_nil]⟩
    · exact ⟨['\n'], Or.inr rfl, hr⟩
  exact ⟨pre, mid, tail, hpre, hmid, htail, ho1, ho2, hp1, hp2, hb1, hb2, hq1, hq2,
    by rw [hs, hr0, hr1, hr2, hr3, hr4']⟩

theorem getLast?_append_right (l₁ l₂ : List Char) (h : l₂ ≠ []) :
    (l₁ ++ l₂).getLast? = l₂.getLast? :=
  List.getLast?_append_of_ne_nil l₁ h

theorem getLast?_cons_right (c : Char) (l : List Char) (h : l ≠ []) :
    (c :: l).getLast? = l.getLast? := by
  rw [show c :: l = [c] ++ l from rfl]
  exact List.getLast?_append_of_ne_nil [c] h

theorem canonical_getLast? {o r b p mid : List Char} (pre : List Char) (hp1 : p ≠ []) :
    (pre ++ (o ++ '/' :: (r ++ '/' :: (mid ++ '/' :: (b ++ '/' :: p))))).getLast? =
      p.getLast? := by
  rw [getLast?_append_right _ _ (by simp),
    getLast?_append_right _ _ (by simp),
    getLast?_cons_right _ _ (by simp),
    getLast?_append_right _ _ (by simp),
    getLast?_cons_right _ _ (by simp),
    getLast?_append_right _ _ (by simp),
    getLast?_cons_right _ _ (by simp),
    getLast?_append_right _ _ (by simp),
    getLast?_cons_right _ _ hp1]

/-- A successful match of the pattern against a sanitized string reconstructs
the whole string: sanitized strings end in a non-whitespace character, so the
`$`-before-terminal-newline case cannot arise and no suffix is left over. -/
theorem githubUrlMatch_sanitized_shape {s : List Char} {ref : ParsedReference}
    (h : githubUrlMatch (sanitize_url s) = some ref) :
    ∃ pre mid,
      (pre = "https://github.com/".toList ∨ pre = "http://github.com/".toList) ∧
      (mid = "blob".toList ∨ mid = "raw".toList) ∧
      ref.owner ≠ [] ∧ '/' ∉ ref.owner ∧
      ref.repo ≠ [] ∧ '/' ∉ ref.repo ∧
      ref.branch ≠ [] ∧ '/' ∉ ref.branch ∧
      ref.path ≠ [] ∧ '\n' ∉ ref.path ∧
      sanitize_url s = pre ++ (ref.owner ++ '/' :: (ref.repo ++ '/' ::
        (mid ++ '/' :: (ref.branch ++ '/' :: ref.path)))) := by
  obtain ⟨pre, mid, tail, hpre, hmid, htail, ho1, ho2, hp1, hp2, hb1, hb2, hq1, hq2, heq⟩ :=
    githubUrlMatch_shape h
  rcases htail with rfl | rfl
  · exact ⟨pre, mid, hpre, hmid, ho1, ho2, hp1, hp2, hb1, hb2, hq1, hq2,
      by simpa using heq⟩
  · exfalso
    have hlast : (sanitize_url s).getLast? = some '\n' := by
      rw [heq, canonical_getLast? pre (by simp), getLast?_append_right _ _ (by simp)]
      rfl
    exact absurd (sanitize_getLast?_not_space hlast) (by decide)

/-- The anchored pattern accepts the canonical browser URL built from any
admissible reference tuple, capturing exactly its four components. -/
theorem githubUrlMatch_canonical {o r b p mid : List Char}
    (hmid : mid = "blob".toList ∨ mid = "raw".toList)
    (ho1 : o ≠ []) (ho2 : '/' ∉ o) (hr1 : r ≠ []) (hr2 : '/' ∉ r)
    (hb1 : b ≠ []) (hb2 : '/' ∉ b) (hp1 : p ≠ []) (hp2 : '\n' ∉ p) :
    githubUrlMatch ("https://github.com/".toList ++
        (o ++ '/' :: (r ++ '/' :: (mid ++ '/' :: (b ++ '/' :: p))))) =
      some ⟨o, r, b, p⟩ := by
  unfold githubUrlMatch
  rw [schemeHost_https]
  simp only [Option.some_bind]
  rw [splitSeg_self _ ho1 ho2]
  simp only [Option.some_bind]
  rw [splitSeg_self _ hr1 hr2]
  simp only [Option.some_bind]
  have hbr : blobRaw (mid ++ '/' :: (b ++ '/' :: p)) = some (b ++ '/' :: p) := by
    rcases hmid with rfl | rfl
    · exact blobRaw_blob _
    · exact blobRaw_raw _
  rw [hbr]
  simp only [Option.some_bind]
  rw [splitSeg_self _ hb1 hb2]
  simp only [Option.some_bind]
  rw [matchPath_self hp1 hp2]
  simp only [Option.map_some']

/-- The canonical browser URL, when its path neither is empty nor ends in
whitespace, is invariant under sanitization. -/
theorem sanitize_canonical {o r b p mid : List Char} (hp1 : p ≠ [])
    (hlast : ∀ c, p.getLast? = some c → isPySpace c = false) :
    sanitize_url ("https://github.com/".toList ++
        (o ++ '/' :: (r ++ '/' :: (mid ++ '/' :: (b ++ '/' :: p))))) =
      "https://github.com/".toList ++
        (o ++ '/' :: (r ++ '/' :: (mid ++ '/' :: (b ++ '/' :: p)))) := by
  apply sanitize_eq_self
  · intro c hc
    have hh : ("https://github.com/".toList ++
        (o ++ '/' :: (r ++ '/' :: (mid ++ '/' :: (b ++ '/' :: p))))).head? = some 'h' := rfl
    rw [hh] at hc
    obtain rfl := Option.some.inj hc
    decide
  · intro c hc
    rw [canonical_getLast? _ hp1] at hc
    exact hlast c hc

/-- The five-segment GitHub browser-URL shape, stated from the spec's words:
scheme `http` or `https`, host `github.com`, then
`/<owner>/<repo>/<blob|raw>/<branch>/<path>` where `owner`, `repo` and
`branch` are non-empty non-slash runs and `path` is the non-empty
remainder. -/
def specGithubShape (s : List Char) : Prop :=
  ∃ pre owner repo mid branch path,
    (pre = "https://github.com/".toList ∨ pre = "http://github.com/".toList) ∧
    (mid = "blob".toList ∨ mid = "raw".toList) ∧
    owner ≠ [] ∧ '/' ∉ owner ∧ repo ≠ [] ∧ '/' ∉ repo ∧
    branch ≠ [] ∧ '/' ∉ branch ∧ path ≠ [] ∧
    s = pre ++ (owner ++ '/' :: (repo ++ '/' :: (mid ++ '/' :: (branch ++ '/' :: path))))


/-! ### Loop lemmas -/

theorem mainIter_exits_eq (e : Event) :
    (mainIter e).exits = isTerminatingEvent e := by
  cases e with
  | line s =>
    simp only [mainIter, isTerminatingEvent]
    by_cases h : pyLower (sanitize_url s) ∈ EXIT_KEYWORDS
    · simp [h]
    · simp only [if_neg h, decide_eq_false h]
      by_cases h2 : sanitize_url s = []
      · simp [h2]
      · simp only [if_neg h2]
        cases hc : convert_to_raw (sanitize_url s) <;> simp
  | interrupt => rfl
  | exn m => rfl

theorem mainIter_code_zero (e : Event) : (mainIter e).exitCode = 0 := by
  cases e with
  | line s =>
    simp only [mainIter]
    by_cases h : pyLower (sanitize_url s) ∈ EXIT_KEYWORDS
    · simp [h]
    · simp only [if_neg h]
      by_cases h2 : sanitize_url s = []
      · simp [h2]
      · simp only [if_neg h2]
        cases hc : convert_to_raw (sanitize_url s) <;> simp
  | interrupt => rfl
  | exn m => rfl

theorem mainIter_output_ne_nil (e : Event) : (mainIter e).output ≠ [] := by
  cases e with
  | line s =>
    simp only [mainIter]
    by_cases h : pyLower (sanitize_url s) ∈ EXIT_KEYWORDS
    · simp [h]
    · simp only [if_neg h]
      by_cases h2 : sanitize_url s = []
      · simp [h2]
      · simp only [if_neg h2]
        cases hc : convert_to_raw (sanitize_url s) <;> simp
  | interrupt => simp [mainIter]
  | exn m => simp [mainIter]

theorem mainLoop_code_zero {es : List Event} {out : List (List Char)} {c : Nat}
    (h : mainLoop es = .exited out c) : c = 0 := by
  induction es generalizing out c with
  | nil => simp [mainLoop] at h
  | cons e es ih =>
    simp only [mainLoop] at h
    by_cases hx : (mainIter e).exits = true
    · rw [if_pos hx] at h
      cases h
      exact mainIter_code_zero e
    · rw [if_neg hx] at h
      rcases hml : mainLoop es with ⟨out', c'⟩ | out' <;> rw [hml] at h
      · cases h
        exact ih hml
      · cases h

theorem mainLoop_exited_iff (es : List Event) :
    (∃ out c, mainLoop es = .exited out c) ↔ ∃ e ∈ es, isTerminatingEvent e = true := by
  induction es with
  | nil =>
    constructor
    · rintro ⟨out, c, h⟩
      simp [mainLoop] at h
    · rintro ⟨e, he, _⟩
      simp at he
  | cons e es ih =>
    by_cases hx : (mainIter e).exits = true
    · constructor
      · intro _
        exact ⟨e, List.mem_cons_self e es, by rw [← mainIter_exits_eq]; exact hx⟩
      · intro _
        refine ⟨(mainIter e).output, (mainIter e).exitCode, ?_⟩
        simp only [mainLoop]
        rw [if_pos hx]
    · constructor
      · rintro ⟨out, c, h⟩
        simp only [mainLoop] at h
        rw [if_neg hx] at h
        rcases hml : mainLoop es with ⟨out', c'⟩ | out' <;> rw [hml] at h
        · obtain ⟨e', he', ht⟩ := ih.mp ⟨out', c', hml⟩
          exact ⟨e', List.mem_cons_of_mem e he', ht⟩
        · cases h
      · rintro ⟨e', he', ht⟩
        rcases List.mem_cons.mp he' with rfl | he'
        · rw [← mainIter_exits_eq] at ht
          exact absurd ht hx
        · obtain ⟨out, c, hml⟩ := ih.mpr ⟨e', he', ht⟩
          refine ⟨(mainIter e).output ++ out, c, ?_⟩
          simp only [mainLoop]
          rw [if_neg hx, hml]

/-! ### Claims -/

/-- C1 (counterexample): the claim fails as stated. With the admissible tuple
(owner, repo, branch, path) = ("a", "b", "c", " ") — all four strings
non-empty and the first three slash-free — `convert_to_raw` on the canonical
`/blob/` browser URL returns `none`, not the claimed raw URL: stripping
removes the trailing whitespace path before the pattern sees it. -/
theorem claim1_counterexample :
    ("a".toList ≠ ([] : List Char)) ∧ '/' ∉ "a".toList ∧
    ("b".toList ≠ ([] : List Char)) ∧ '/' ∉ "b".toList ∧
    ("c".toList ≠ ([] : List Char)) ∧ '/' ∉ "c".toList ∧
    (" ".toList ≠ ([] : List Char)) ∧
    convert_to_raw ("https://github.com/".toList ++ "a".toList ++ "/".toList ++
        "b".toList ++ "/blob/".toList ++ "c".toList ++ "/".toList ++ " ".toList) = none ∧
    convert_to_raw ("https://github.com/".toList ++ "a".toList ++ "/".toList ++
        "b".toList ++ "/blob/".toList ++ "c".toList ++ "/".toList ++ " ".toList) ≠
      some ("https://raw.githubusercontent.com/".toList ++ "a".toList ++ "/".toList ++
        "b".toList ++ "/".toList ++ "c".toList ++ "/".toList ++ " ".toList) := by
  decide

/-- C1 (amended): for every tuple (owner, repo, branch, path) of non-empty
strings where owner, repo and branch contain no `/`, and path contains no
newline and does not end in a whitespace character, `convert_to_raw` applied
to `https://github.com/` + owner + `/` + repo + `/blob/` + branch + `/` +
path returns `https://raw.githubusercontent.com/` + owner + `/` + repo + `/`
+ branch + `/` + path, and the same holds with `/raw/` in place of
`/blob/`. -/
theorem claim1_convert_canonical {o r b p mid : List Char}
    (hmid : mid = "blob".toList ∨ mid = "raw".toList)
    (ho1 : o ≠ []) (ho2 : '/' ∉ o) (hr1 : r ≠ []) (hr2 : '/' ∉ r)
    (hb1 : b ≠ []) (hb2 : '/' ∉ b) (hp1 : p ≠ []) (hp2 : '\n' ∉ p)
    (hp3 : ∀ c, p.getLast? = some c → isPySpace c = false) :
    convert_to_raw ("https://github.com/".toList ++ o ++ '/' :: r ++ '/' ::
        mid ++ '/' :: b ++ '/' :: p) =
      some ("https://raw.githubusercontent.com/".toList ++ o ++ '/' :: r ++ '/' ::
        b ++ '/' :: p) := by
  have hshape : "https://github.com/".toList ++ o ++ '/' :: r ++ '/' ::
        mid ++ '/' :: b ++ '/' :: p =
      "https://github.com/".toList ++
        (o ++ '/' :: (r ++ '/' :: (mid ++ '/' :: (b ++ '/' :: p)))) := by
    simp [List.append_assoc]
  rw [hshape]
  unfold convert_to_raw
  rw [sanitize_canonical hp1 hp3,
    githubUrlMatch_canonical hmid ho1 ho2 hr1 hr2 hb1 hb2 hp1 hp2]
  rfl

/-- C1 (witness): the amended theorem applied at the concrete tuple
("torvalds", "linux", "master", "README"). -/
theorem claim1_witness :
    convert_to_raw ("https://github.com/".toList ++ "torvalds".toList ++ '/' ::
        "linux".toList ++ '/' :: "blob".toList ++ '/' :: "master".toList ++ '/' ::
        "README".toList) =
      some ("https://raw.githubusercontent.com/".toList ++ "torvalds".toList ++ '/' ::
        "linux".toList ++ '/' :: "master".toList ++ '/' :: "README".toList) :=
  claim1_convert_canonical (Or.inl rfl) (by decide) (by decide) (by decide)
    (by decide) (by decide) (by decide) (by decide) (by decide)
    (by
      intro c hc
      have hD : ("README".toList).getLast? = some 'E' := by decide
      rw [hD] at hc
      obtain rfl := Option.some.inj hc
      decide)

/-- C2: `convert_to_raw` returns `none` for every input whose trimmed form
does not fit the five-segment GitHub shape; in particular for a non-GitHub
host, a URL missing the blob/raw, branch and path segments, a malformed
scheme, and the empty string. -/
theorem claim2_convert_none :
    (∀ s : List Char, ¬ specGithubShape (sanitize_url s) → convert_to_raw s = none) ∧
    convert_to_raw ("https://gitlab.com/a/b/blob/main/f.txt".toList) = none ∧
    convert_to_raw ("https://github.com/a/b".toList) = none ∧
    convert_to_raw ("htp://github.com/a/b/blob/main/f.txt".toList) = none ∧
    convert_to_raw ([] : List Char) = none := by
  refine ⟨?_, by decide, by decide, by decide, by decide⟩
  intro s hshape
  rcases hm : githubUrlMatch (sanitize_url s) with _ | ref
  · simp [convert_to_raw, hm]
  · exfalso
    apply hshape
    obtain ⟨pre, mid, hpre, hmid, ho1, ho2, hp1, hp2, hb1, hb2, hq1, _, heq⟩ :=
      githubUrlMatch_sanitized_shape hm
    exact ⟨pre, ref.owner, ref.repo, mid, ref.branch, ref.path, hpre, hmid,
      ho1, ho2, hp1, hp2, hb1, hb2, hq1, heq⟩

/-- C2 (witness): the universal part applied to the empty string. -/
theorem claim2_witness : convert_to_raw ([] : List Char) = none :=
  claim2_convert_none.1 [] (by
    rintro ⟨pre, o, r, mid, b, p, hpre, hmid, _, _, _, _, _, _, _, heq⟩
    have hnil : sanitize_url ([] : List Char) = [] := rfl
    rw [hnil] at heq
    rcases hpre with rfl | rfl
    · rw [show ("https://github.com/".toList : List Char) =
            'h' :: "ttps://github.com/".toList from rfl] at heq
      simp at heq
    · rw [show ("http://github.com/".toList : List Char) =
            'h' :: "ttp://github.com/".toList from rfl] at heq
      simp at heq)

/-- C3: recognition is total and, when it produces a `ParsedReference`, all
four captured fields are non-empty; no partially-filled record is ever
produced. -/
theorem claim3_recognition_total (s : List Char) :
    githubUrlMatch s = none ∨
      ∃ ref, githubUrlMatch s = some ref ∧
        ref.owner ≠ [] ∧ ref.repo ≠ [] ∧ ref.branch ≠ [] ∧ ref.path ≠ [] := by
  rcases hm : githubUrlMatch s with _ | ref
  · exact Or.inl rfl
  · obtain ⟨_, _, _, _, _, _, ho1, _, hp1, _, hb1, _, hq1, _, _⟩ :=
      githubUrlMatch_shape hm
    exact Or.inr ⟨ref, rfl, ho1, hp1, hb1, hq1⟩

/-- C4: the match is anchored at the start (an input with characters before
the scheme is rejected) and a successful match on the trimmed input consumes
it entirely: the trimmed input is exactly the reconstruction of the five
segments, with everything after the branch segment inside the path. -/
theorem claim4_anchored :
    convert_to_raw ("x https://github.com/a/b/blob/main/f".toList) = none ∧
    ∀ (s : List Char) (ref : ParsedReference),
      githubUrlMatch (sanitize_url s) = some ref →
      ∃ pre mid,
        (pre = "https://github.com/".toList ∨ pre = "http://github.com/".toList) ∧
        (mid = "blob".toList ∨ mid = "raw".toList) ∧
        sanitize_url s = pre ++ ref.owner ++ '/' :: ref.repo ++ '/' :: mid ++ '/' ::
          ref.branch ++ '/' :: ref.path := by
  refine ⟨by decide, ?_⟩
  intro s ref hm
  obtain ⟨pre, mid, hpre, hmid, _, _, _, _, _, _, _, _, heq⟩ :=
    githubUrlMatch_sanitized_shape hm
  refine ⟨pre, mid, hpre, hmid, ?_⟩
  rw [heq]
  simp [List.append_assoc]

/-- C4 (witness): the reconstruction applied to the concrete torvalds URL. -/
theorem claim4_witness :
    ∃ pre mid,
      (pre = "https://github.com/".toList ∨ pre = "http://github.com/".toList) ∧
      (mid = "blob".toList ∨ mid = "raw".toList) ∧
      sanitize_url ("https://github.com/torvalds/linux/blob/master/README".toList) =
        pre ++ (ParsedReference.mk ("torvalds".toList) ("linux".toList)
            ("master".toList) ("README".toList)).owner ++ '/' ::
          (ParsedReference.mk ("torvalds".toList) ("linux".toList)
            ("master".toList) ("README".toList)).repo ++ '/' :: mid ++ '/' ::
          (ParsedReference.mk ("torvalds".toList) ("linux".toList)
            ("master".toList) ("README".toList)).branch ++ '/' ::
          (ParsedReference.mk ("torvalds".toList) ("linux".toList)
            ("master".toList) ("README".toList)).path :=
  claim4_anchored.2 ("https://github.com/torvalds/linux/blob/master/README".toList)
    (ParsedReference.mk ("torvalds".toList) ("linux".toList) ("master".toList)
      ("README".toList)) (by decide)

/-- C5: `convert_to_raw` is insensitive to surrounding whitespace: adding two
spaces on each side of any string yields exactly the same result. -/
theorem claim5_whitespace_insensitive (url : List Char) :
    convert_to_raw ("  ".toList ++ url ++ "  ".toList) = convert_to_raw url := by
  unfold convert_to_raw
  rw [List.append_assoc, sanitize_ws_left _ (by decide), sanitize_ws_right _ (by decide)]

/-- C6: for every `ParsedReference` produced by recognition, the produced raw
URL is exactly the concatenation of the fixed template with the captured
fields inserted verbatim — including fields holding braces, spaces or percent
signs (curly braces written `\x7b`/`\x7d`). -/
theorem claim6_template_verbatim :
    (∀ (s : List Char) (ref : ParsedReference),
      githubUrlMatch (sanitize_url s) = some ref →
      convert_to_raw s = some ("https://raw.githubusercontent.com/".toList ++
        ref.owner ++ '/' :: ref.repo ++ '/' :: ref.branch ++ '/' :: ref.path)) ∧
    convert_to_raw ("https://github.com/o w n/re%po/blob/br\x7banch/p\x7dath x".toList) =
      some ("https://raw.githubusercontent.com/o w n/re%po/br\x7banch/p\x7dath x".toList) := by
  refine ⟨?_, by decide⟩
  intro s ref hm
  unfold convert_to_raw
  rw [hm]
  rfl

/-- C6 (witness): the templating equation applied at a concrete match. -/
theorem claim6_witness :
    convert_to_raw ("https://github.com/a/b/blob/c/d".toList) =
      some ("https://raw.githubusercontent.com/".toList ++
        (ParsedReference.mk ("a".toList) ("b".toList) ("c".toList) ("d".toList)).owner
          ++ '/' ::
        (ParsedReference.mk ("a".toList) ("b".toList) ("c".toList) ("d".toList)).repo
          ++ '/' ::
        (ParsedReference.mk ("a".toList) ("b".toList) ("c".toList) ("d".toList)).branch
          ++ '/' ::
        (ParsedReference.mk ("a".toList) ("b".toList) ("c".toList) ("d".toList)).path) :=
  claim6_template_verbatim.1 ("https://github.com/a/b/blob/c/d".toList)
    (ParsedReference.mk ("a".toList) ("b".toList) ("c".toList) ("d".toList)) (by decide)

/-- C7: a line whose trimmed, lowercased form is an exit keyword makes the
iteration print `Goodbye!`, terminate the loop with exit status 0, and never
call the converter. -/
theorem claim7_exit_keywords (s : List Char)
    (h : pyLower (sanitize_url s) ∈ EXIT_KEYWORDS) :
    mainIter (Event.line s) =
      IterResult.mk [("Goodbye!".toList)] true 0 false ∧
    mainLoop [Event.line s] = LoopResult.exited [("Goodbye!".toList)] 0 := by
  have h1 : mainIter (Event.line s) = IterResult.mk [("Goodbye!".toList)] true 0 false := by
    simp [mainIter, h]
  exact ⟨h1, by simp [mainLoop, h1]⟩

/-- C7 (witness): the exit behaviour at the concrete line `  QuIt  `. -/
theorem claim7_witness :
    mainIter (Event.line ("  QuIt  ".toList)) =
      IterResult.mk [("Goodbye!".toList)] true 0 false ∧
    mainLoop [Event.line ("  QuIt  ".toList)] =
      LoopResult.exited [("Goodbye!".toList)] 0 :=
  claim7_exit_keywords ("  QuIt  ".toList) (by decide)

/-- C8: the loop never terminates because of an error. Every non-terminating
event (an empty line, a failed conversion, any unexpected exception) prints a
message and continues; the loop exits exactly when an exit-keyword line or an
interrupt occurs, and every exit carries status 0. -/
theorem claim8_no_error_termination :
    (∀ e : Event, isTerminatingEvent e = false →
      (mainIter e).exits = false ∧ (mainIter e).output ≠ []) ∧
    (∀ es : List Event,
      (∃ out c, mainLoop es = LoopResult.exited out c) ↔
        ∃ e ∈ es, isTerminatingEvent e = true) ∧
    (∀ (es : List Event) (out : List (List Char)) (c : Nat),
      mainLoop es = LoopResult.exited out c → c = 0) := by
  refine ⟨?_, mainLoop_exited_iff, fun es out c h => mainLoop_code_zero h⟩
  intro e he
  exact ⟨by rw [mainIter_exits_eq, he], mainIter_output_ne_nil e⟩

/-- C8 (witness): an unexpected exception event continues the loop with a
printed message. -/
theorem claim8_witness :
    (mainIter (Event.exn ("boom".toList))).exits = false ∧
      (mainIter (Event.exn ("boom".toList))).output ≠ [] :=
  claim8_no_error_termination.1 (Event.exn ("boom".toList)) (by decide)

/-- C9: `convert_to_raw` is deterministic and pure: run against any program
state, it leaves the state unchanged, its result does not depend on the
state, and a second run on the same input returns the same result. -/
theorem claim9_pure (w₁ w₂ : List (List Char)) (url : List Char) :
    (convertRun w₁ url).1 = w₁ ∧
    (convertRun w₁ url).2 = (convertRun w₂ url).2 ∧
    (convertRun (convertRun w₁ url).1 url).2 = (convertRun w₁ url).2 :=
  ⟨rfl, rfl, rfl⟩

/-- C10: `convert_to_raw` succeeds exactly when `is_valid_github_url` accepts
the trimmed input; consequently the two disagree on a valid URL surrounded by
whitespace, where `is_valid_github_url` (which does not trim) rejects while
`convert_to_raw` succeeds. -/
theorem claim10_valid_iff :
    (∀ s : List Char,
      (convert_to_raw s).isSome = is_valid_github_url (sanitize_url s)) ∧
    is_valid_github_url ("  https://github.com/torvalds/linux/blob/master/README  ".toList)
      = false ∧
    (convert_to_raw ("  https://github.com/torvalds/linux/blob/master/README  ".toList)).isSome
      = true := by
  refine ⟨?_, by decide, by decide⟩
  intro s
  unfold convert_to_raw is_valid_github_url
  rcases hm : githubUrlMatch (sanitize_url s) with _ | ref <;> simp [hm]

end TvLogos
